import Mathlib

/-!
Verification of the kptncook persistence layer (src/kptncook/repositories.py).

The repository stores recipes in a SQLite database with three tables:
recipes (primary key id), ingredients (primary key key) and
recipe_ingredients (primary key (recipe_id, position)).  This file is a
shallow embedding of RecipeRepository: the SQLite tables become lists of
rows, the recipe payload (a Python dict produced from JSON) becomes the
Json type below, and every operation of the class becomes a Lean function
on an explicit repository state.

Modelling conventions, each noted again at the definition it concerns:
- A Python value that can appear in a recipe payload is a Json value;
  Python None and JSON null are both Json.null, which is also how a SQL
  NULL column is represented.  json.dumps followed by json.loads is the
  identity on such documents, so raw_json is stored as the Json value
  itself.  Floating point payload numbers are outside the model (Json
  numbers are integers); no claim computes with numbers.
- datetime.date values are represented by their ISO string
  (date.isoformat), which is how they are stored in the date column;
  isoformat is injective and order preserving, and fromisoformat is its
  inverse, so the column value stands for the date itself.
- Failures (KeyError, AttributeError, TypeError, the ValueError raised
  for a malformed ingredient, pydantic validation errors) become the Err
  type.  The sqlite3 connection context manager commits on success and
  rolls the open transaction back when the body raises, so add and
  add_list either return a fully updated table state or the unchanged
  previous state together with an error.
-/

namespace Kptncook

/-- A JSON-representable Python value: the payloads handled by the store.
Python dicts preserve insertion order, hence the association list. -/
inductive Json where
  | null : Json
  | bool : Bool → Json
  | num : Int → Json
  | str : String → Json
  | arr : List Json → Json
  | obj : List (String × Json) → Json

/-- Errors raised while executing a store operation.  Only
malformedIngredient (the ValueError raised by _canonical_ingredient_key)
is distinguished by the spec; the other cases record which Python
exception the corresponding source line raises. -/
inductive Err where
  | keyErr : String → Err
  | attrErr : Err
  | malformedIngredient : Err
  | validationErr : Err
  | unmodeled : String → Err
  deriving DecidableEq

/-- Python truthiness of a payload value: None, False, 0, the empty
string, the empty list and the empty dict are falsy. -/
def Json.truthy : Json → Bool
  | .null => false
  | .bool b => b
  | .num n => n != 0
  | .str s => s != ""
  | .arr xs => !xs.isEmpty
  | .obj kvs => !kvs.isEmpty

/-- First binding of a key in a dict (Python dicts hold each key once). -/
def jlookup : List (String × Json) → String → Option Json
  | [], _ => none
  | (k', v) :: rest, k => if k' = k then some v else jlookup rest k

/-- Python d.get(k, dflt): the value stored at k, or dflt when the key is
absent.  d.get(k) is Json.getD d k Json.null since Python returns None
then.  Calling .get on a non-dict raises AttributeError. -/
def Json.getD : Json → String → Json → Except Err Json
  | .obj kvs, k, dflt => .ok ((jlookup kvs k).getD dflt)
  | _, _, _ => .error .attrErr

/-- Python d[k]: raises KeyError when the key is absent and TypeError
(collapsed into attrErr here) when d is not a dict. -/
def Json.item : Json → String → Except Err Json
  | .obj kvs, k =>
    match jlookup kvs k with
    | some v => .ok v
    | none => .error (.keyErr k)
  | _, _ => .error .attrErr

/-- Python str() of an atomic payload value.  str() of a list or dict
produces a Python repr and is left outside the model: for payloads of the
upstream interface the typ field is a string, so this case is never
reached by the claims. -/
def pyStrAtom : Json → Except Err String
  | .str s => .ok s
  | .num n => .ok (toString n)
  | .bool true => .ok "True"
  | .bool false => .ok "False"
  | .null => .ok "None"
  | .arr _ => .error (.unmodeled "str of a list")
  | .obj _ => .error (.unmodeled "str of a dict")

/-- Python str.split() on a character list: split on runs of whitespace,
dropping leading and trailing whitespace; the second argument accumulates
the current word in reverse. -/
def wsWords : List Char → List Char → List (List Char)
  | [], cur => if cur.isEmpty then [] else [cur.reverse]
  | c :: rest, cur =>
    if c.isWhitespace then
      if cur.isEmpty then wsWords rest [] else cur.reverse :: wsWords rest []
    else
      wsWords rest (c :: cur)

/-- The underscore join of the words. -/
def joinUnders : List (List Char) → List Char
  | [] => []
  | [w] => w
  | w :: rest => w ++ '_' :: joinUnders rest

/-- The underscore join of repositories.py line 137: title.lower().split()
joined with single underscores.  Python str.split() splits on runs of
whitespace and drops leading and trailing whitespace; str.lower() maps
each character (they agree on the ASCII payloads handled here). -/
def collapseWs (s : String) : String :=
  String.mk (joinUnders (wsWords (s.data.map Char.toLower) []))

/-- The five languages of every localized column group, in the priority
order used by _canonical_ingredient_key. -/
def langOrder : List String := ["en", "de", "es", "fr", "pt"]

/-- The loop of _canonical_ingredient_key lines 134-137: scan the
localized titles in language order; the first truthy one is lower-cased
and underscore-joined (title.lower() on a truthy non-string raises
AttributeError); if none is truthy the ValueError of line 138 is raised. -/
def scanTitles (localized : Json) : List String → Except Err String
  | [] => .error .malformedIngredient
  | lang :: rest => do
    let t ← localized.getD lang .null
    if t.truthy then
      match t with
      | .str s => .ok (collapseWs s)
      | _ => .error .attrErr
    else
      scanTitles localized rest

/-- RecipeRepository._canonical_ingredient_key (lines 130-138): a truthy
typ yields str(typ); otherwise the localized titles are scanned, with the
empty dict standing in for an absent localizedTitle. -/
def canonicalIngredientKey (d : Json) : Except Err String := do
  let typ ← d.getD "typ" .null
  if typ.truthy then
    pyStrAtom typ
  else do
    let localized ← d.getD "localizedTitle" (Json.obj [])
    scanTitles localized langOrder

/-- One localized column group (en, de, es, fr, pt) as stored in the
database; Json.null is a SQL NULL. -/
structure Loc5 where
  en : Json
  de : Json
  es : Json
  fr : Json
  pt : Json

/-- The all-NULL column group. -/
def Loc5.nulls : Loc5 := ⟨.null, .null, .null, .null, .null⟩

/-- RecipeRepository._localized_values (lines 120-128): a falsy value
(None, the empty dict, ...) is replaced by the empty dict; .get on a
truthy non-dict raises AttributeError; otherwise the five language
entries are read, each defaulting to None. -/
def localizedValues (v : Json) : Except Err Loc5 :=
  if v.truthy then
    match v with
    | .obj kvs =>
      .ok ⟨(jlookup kvs "en").getD .null, (jlookup kvs "de").getD .null,
           (jlookup kvs "es").getD .null, (jlookup kvs "fr").getD .null,
           (jlookup kvs "pt").getD .null⟩
    | _ => .error .attrErr
  else
    .ok Loc5.nulls

/-- A row of the recipes table: id TEXT PRIMARY KEY, date TEXT (the ISO
string), the five title columns, raw_json (kept as the Json document,
since json.loads inverts json.dumps on such documents). -/
structure RecipeRow where
  id : String
  date : String
  title : Loc5
  raw : Json

/-- A row of the ingredients table: key TEXT PRIMARY KEY, typ, category
and three localized column groups. -/
structure IngredientRow where
  key : String
  typ : Json
  category : Json
  title : Loc5
  number_title : Loc5
  uncountable_title : Loc5

/-- A row of the recipe_ingredients table: primary key
(recipe_id, position). -/
structure LinkRow where
  recipe_id : String
  ingredient_key : String
  quantity : Json
  measure : Json
  position : Nat

/-- The three tables of the schema (lines 75-116). -/
structure Tables where
  recipes : List RecipeRow
  ingredients : List IngredientRow
  links : List LinkRow

/-- The pydantic model RecipeInDb: a date (as its ISO string, see the
header) and the raw payload dict. -/
structure RecipeInDb where
  date : String
  data : Json

/-- The id property of RecipeInDb: data at key _id, then at key oid-dollar
(written dollar-oid in the source); stored into the TEXT primary key
column, so a non-string value there is outside the model (sqlite TEXT
affinity is not modelled). -/
def recipeId (data : Json) : Except Err String := do
  let idObj ← data.item "_id"
  let oid ← idObj.item "$oid"
  match oid with
  | .str s => .ok s
  | _ => .error (.unmodeled "non-text id")

/-- INSERT ... ON CONFLICT(id) DO UPDATE of lines 190-211: replace the
row with the same primary key, or append a new row.  The update sets
every column, so the conflicting row is replaced whole. -/
def upsertRecipeRow : List RecipeRow → RecipeRow → List RecipeRow
  | [], row => [row]
  | r :: rest, row =>
    if r.id = row.id then row :: rest else r :: upsertRecipeRow rest row

/-- INSERT ... ON CONFLICT(key) DO UPDATE of lines 147-183: every column
of the conflicting ingredient row is set from the new values. -/
def upsertIngRow : List IngredientRow → IngredientRow → List IngredientRow
  | [], row => [row]
  | r :: rest, row =>
    if r.key = row.key then row :: rest else r :: upsertIngRow rest row

/-- INSERT ... ON CONFLICT(recipe_id, position) DO UPDATE of lines
218-236. -/
def upsertLinkRow : List LinkRow → LinkRow → List LinkRow
  | [], row => [row]
  | l :: rest, row =>
    if l.recipe_id = row.recipe_id ∧ l.position = row.position then
      row :: rest
    else
      l :: upsertLinkRow rest row

/-- The full ingredient row written by _upsert_ingredient (lines
140-184): the canonical key is derived first, then the three localized
groups are read, then the remaining columns; every column value is a
function of the ingredient details alone. -/
def ingRowOf (d : Json) : Except Err IngredientRow := do
  let key ← canonicalIngredientKey d
  let lt ← localizedValues (← d.getD "localizedTitle" .null)
  let nt ← localizedValues (← d.getD "numberTitle" .null)
  let ut ← localizedValues (← d.getD "uncountableTitle" .null)
  let typ ← d.getD "typ" .null
  let cat ← d.getD "category" .null
  .ok ⟨key, typ, cat, lt, nt, ut⟩

/-- RecipeRepository._upsert_ingredient (lines 140-184): build the row,
upsert it on its key, and return the key for the caller to link against. -/
def upsertIngredient (tbl : List IngredientRow) (d : Json) :
    Except Err (List IngredientRow × String) := do
  let row ← ingRowOf d
  .ok (upsertIngRow tbl row, row.key)

/-- The localized title columns written for a recipe row:
_localized_values(recipe.data.get(localizedTitle)). -/
def recipeTitle (data : Json) : Except Err Loc5 := do
  localizedValues (← data.getD "localizedTitle" .null)

/-- recipe.data.get(ingredients, empty list) of line 215.  Iteration over
a truthy non-list (Python would enumerate the characters of a string or
the keys of a dict) is outside the model. -/
def ingredientsListOf (data : Json) : Except Err (List Json) := do
  let v ← data.getD "ingredients" (Json.arr [])
  match v with
  | .arr xs => .ok xs
  | _ => .error (.unmodeled "iteration over a non-list")

/-- One pass of the loop body of lines 215-236 at a given position:
details default to the empty dict, the ingredient row is upserted, and
the link row is inserted. -/
def processIngredient (rid : String) (pos : Nat)
    (acc : List IngredientRow × List LinkRow) (ing : Json) :
    Except Err (List IngredientRow × List LinkRow) := do
  let details ← ing.getD "ingredient" (Json.obj [])
  let r ← upsertIngredient acc.1 details
  let q ← ing.getD "quantity" .null
  let m ← ing.getD "measure" .null
  .ok (r.1, upsertLinkRow acc.2 ⟨rid, r.2, q, m, pos⟩)

/-- The enumerate loop of lines 215-236, threading the ingredient table
and the link table through the positions. -/
def processIngredients (rid : String) (pos : Nat)
    (acc : List IngredientRow × List LinkRow) :
    List Json → Except Err (List IngredientRow × List LinkRow)
  | [] => .ok acc
  | ing :: rest => do
    let acc' ← processIngredient rid pos acc ing
    processIngredients rid (pos + 1) acc' rest

/-- DELETE FROM recipe_ingredients WHERE recipe_id = ? of lines 212-214. -/
def deleteLinks (links : List LinkRow) (rid : String) : List LinkRow :=
  links.filter (fun l => ¬ l.recipe_id = rid)

/-- RecipeRepository._upsert_recipe (lines 186-236): upsert the recipe
row, delete every link of this recipe id, then rebuild ingredient rows
and links from the current ingredient list. -/
def upsertRecipe (t : Tables) (r : RecipeInDb) : Except Err Tables := do
  let rid ← recipeId r.data
  let lt ← recipeTitle r.data
  let recipes' := upsertRecipeRow t.recipes ⟨rid, r.date, lt, r.data⟩
  let ings ← ingredientsListOf r.data
  let acc ← processIngredients rid 0 (t.ingredients, deleteLinks t.links rid) ings
  .ok ⟨recipes', acc.1, acc.2⟩

/-- The repository state: the database file content and the backup file
content (none before the first backup is written). -/
structure RepoState where
  db : Tables
  backup : Option Tables

/-- The state right after __init__ on a fresh directory: empty tables,
no backup file. -/
def initialState : RepoState := ⟨⟨[], [], []⟩, none⟩

/-- RecipeRepository.create_backup (lines 58-60): copy the database file
over the backup file.  The guard path.exists() is always true once the
constructor has run, because _ensure_schema opens (and thereby creates)
the database file, so the copy is unconditional here. -/
def createBackup (s : RepoState) : RepoState := ⟨s.db, some s.db⟩

/-- RecipeRepository.add (lines 254-257): back up, then run the upsert in
one connection.  The sqlite3 connection context manager commits the
transaction on success and rolls it back when the body raises, so on
error the tables revert to their state before the call (the backup copy,
a plain file copy, is not transactional and survives). -/
def riAdd (s : RepoState) (r : RecipeInDb) : RepoState × Option Err :=
  let s₁ := createBackup s
  match upsertRecipe s₁.db r with
  | .ok db' => (⟨db', s₁.backup⟩, none)
  | .error e => (s₁, some e)

/-- The sequential upserts of add_list, all inside one connection. -/
def upsertRecipes (t : Tables) : List RecipeInDb → Except Err Tables
  | [] => .ok t
  | r :: rest => do upsertRecipes (← upsertRecipe t r) rest

/-- RecipeRepository.add_list (lines 259-263): one backup, one
connection, sequential upserts; an exception rolls back the whole batch. -/
def riAddList (s : RepoState) (rs : List RecipeInDb) : RepoState × Option Err :=
  let s₁ := createBackup s
  match upsertRecipes s₁.db rs with
  | .ok db' => (⟨db', s₁.backup⟩, none)
  | .error e => (s₁, some e)

/-- _rows_to_recipes for one row: date.fromisoformat inverts isoformat
and json.loads inverts json.dumps, so the stored column values come back
as the original date and payload. -/
def rowToRecipe (row : RecipeRow) : RecipeInDb := ⟨row.date, row.raw⟩

/-- RecipeRepository.get (lines 283-291): SELECT ... WHERE id = ? LIMIT 1,
None when absent. -/
def riGet (s : RepoState) (rid : String) : Option RecipeInDb :=
  (s.db.recipes.find? (fun row => row.id = rid)).map rowToRecipe

/-- RecipeRepository.needs_to_be_synced (lines 244-252): true iff the
SELECT over the date column finds no row. -/
def needsToBeSynced (s : RepoState) (d : String) : Bool :=
  (s.db.recipes.find? (fun row => row.date = d)).isNone

/-- The ORDER BY of RecipeRepository.list (line 279): date descending,
then id ascending.  On ISO date strings the lexicographic string order
used by sqlite agrees with the calendar order. -/
def recipeLe (a b : RecipeRow) : Prop :=
  b.date < a.date ∨ (b.date = a.date ∧ a.id ≤ b.id)

instance : DecidableRel recipeLe := fun a b =>
  inferInstanceAs (Decidable (b.date < a.date ∨ (b.date = a.date ∧ a.id ≤ b.id)))

instance : IsTotal RecipeRow recipeLe where
  total a b := by
    rcases lt_trichotomy a.date b.date with h | h | h
    · exact Or.inr (Or.inl h)
    · rcases le_total a.id b.id with h' | h'
      · exact Or.inl (Or.inr ⟨h.symm, h'⟩)
      · exact Or.inr (Or.inr ⟨h, h'⟩)
    · exact Or.inl (Or.inl h)

instance : IsTrans RecipeRow recipeLe where
  trans a b c hab hbc := by
    rcases hab with hab | ⟨hab, hab'⟩
    · rcases hbc with hbc | ⟨hbc, _⟩
      · exact Or.inl (lt_trans hbc hab)
      · exact Or.inl (hbc ▸ hab)
    · rcases hbc with hbc | ⟨hbc, hbc'⟩
      · exact Or.inl (hab ▸ hbc)
      · exact Or.inr ⟨hbc.trans hab, le_trans hab' hbc'⟩

/-- RecipeRepository.list (lines 276-281): all rows, sorted by the ORDER
BY relation, converted back to RecipeInDb values. -/
def riList (s : RepoState) : List RecipeInDb :=
  (List.insertionSort recipeLe s.db.recipes).map rowToRecipe

/-- COALESCE(title_de, title_en, typ) of line 296: the first non-NULL of
the three columns. -/
def coalKey (row : IngredientRow) : Json :=
  match row.title.de with
  | .null =>
    match row.title.en with
    | .null => row.typ
    | v => v
  | v => v

/-- The sqlite storage class rank used by ORDER BY: NULL before numbers
(booleans are bound as integers) before text.  Lists and dicts cannot be
bound as column values and are ranked last, unreachable for stored rows. -/
def jsonRank : Json → Nat
  | .null => 0
  | .bool _ => 1
  | .num _ => 1
  | .str _ => 2
  | .arr _ => 3
  | .obj _ => 3

/-- Numeric value of a stored column value, for ordering within rank 1. -/
def jsonNumVal : Json → Int
  | .bool b => if b then 1 else 0
  | .num n => n
  | _ => 0

/-- Text value of a stored column value, for ordering within rank 2; the
lexicographic String order agrees with the sqlite BINARY collation on the
ASCII payloads handled here. -/
def jsonStrVal : Json → String
  | .str s => s
  | _ => ""

/-- The ascending sqlite value order of the ORDER BY clause of line 296:
rank, then numeric value, then text value. -/
def jsonKeyLe (a b : Json) : Bool :=
  decide (jsonRank a < jsonRank b) ||
    (jsonRank a == jsonRank b &&
      (decide (jsonNumVal a < jsonNumVal b) ||
        (jsonNumVal a == jsonNumVal b && decide (jsonStrVal a ≤ jsonStrVal b))))

/-- Row order of list_ingredients: ORDER BY COALESCE(title_de, title_en, typ). -/
def ingLe (a b : IngredientRow) : Prop :=
  jsonKeyLe (coalKey a) (coalKey b) = true

instance : DecidableRel ingLe := fun a b =>
  inferInstanceAs (Decidable (jsonKeyLe (coalKey a) (coalKey b) = true))

/-- Modelled from the spec: the pydantic model LocalizedString lives in
kptncook/models.py, which is not part of the sources given; the glossary
describes it as a per-language mapping of a text field over the five
languages, each independently optional. -/
structure LocalizedString where
  en : Option String
  de : Option String
  es : Option String
  fr : Option String
  pt : Option String

/-- Modelled from the spec: reading a stored column value into an
optional text field of LocalizedString; NULL becomes absent and a
non-text value fails validation (the column values written by the claims
are always text or NULL). -/
def asOptText : Json → Except Err (Option String)
  | .null => .ok none
  | .str s => .ok (some s)
  | _ => .error .validationErr

/-- Read one localized column group back into a LocalizedString. -/
def loc5ToLocalized (l : Loc5) : Except Err LocalizedString := do
  .ok ⟨← asOptText l.en, ← asOptText l.de, ← asOptText l.es,
       ← asOptText l.fr, ← asOptText l.pt⟩

/-- Truthiness of an optional text field: None and the empty string are
falsy, matching any(...) over model_dump().values() in lines 328-332. -/
def optTruthy : Option String → Bool
  | none => false
  | some s => s != ""

/-- any(localized.model_dump().values()) of lines 328 and 331. -/
def LocalizedString.anyTruthy (l : LocalizedString) : Bool :=
  optTruthy l.en || optTruthy l.de || optTruthy l.es || optTruthy l.fr || optTruthy l.pt

/-- The pydantic model IngredientRecord of repositories.py lines 33-39. -/
structure IngredientRecord where
  key : String
  typ : Option String
  category : Option String
  localized_title : LocalizedString
  number_title : Option LocalizedString
  uncountable_title : Option LocalizedString

/-- The record built for one row in lines 299-334: number_title and
uncountable_title are kept only when some language field is truthy. -/
def recordOfIngRow (row : IngredientRow) : Except Err IngredientRecord := do
  let lt ← loc5ToLocalized row.title
  let nt ← loc5ToLocalized row.number_title
  let ut ← loc5ToLocalized row.uncountable_title
  let typ ← asOptText row.typ
  let cat ← asOptText row.category
  .ok ⟨row.key, typ, cat, lt,
       if nt.anyTruthy then some nt else none,
       if ut.anyTruthy then some ut else none⟩

/-- The row loop of list_ingredients, in table order. -/
def ingRecords : List IngredientRow → Except Err (List IngredientRecord)
  | [] => .ok []
  | row :: rest => do
    let r ← recordOfIngRow row
    let rs ← ingRecords rest
    .ok (r :: rs)

/-- RecipeRepository.list_ingredients (lines 293-335): all ingredient
rows in COALESCE order, converted to IngredientRecord values. -/
def riListIngredients (s : RepoState) : Except Err (List IngredientRecord) :=
  ingRecords (List.insertionSort ingLe s.db.ingredients)

/-- A column value is text or NULL. -/
def isTextOrNull : Json → Bool
  | .null => true
  | .str _ => true
  | _ => false

/-- A stored column value that Python and sqlite treat as empty: NULL or
the empty string. -/
def emptyText : Json → Bool
  | .null => true
  | .str s => s == ""
  | _ => false

/-- Every language field of a stored column group is empty (NULL or the
empty string). -/
def Loc5.allEmptyText (l : Loc5) : Bool :=
  emptyText l.en && emptyText l.de && emptyText l.es && emptyText l.fr && emptyText l.pt

/-- The five language entries of a title dict are text or absent (absent
reads as None). -/
def wfLangValues (kvs : List (String × Json)) : Bool :=
  langOrder.all (fun lang => isTextOrNull ((jlookup kvs lang).getD .null))

/-- Shape of the localizedTitle binding inside ingredient details, as the
upstream interface delivers it: absent, or a dict of per-language text. -/
def wfTitleMap : Option Json → Bool
  | none => true
  | some (.obj kvs) => wfLangValues kvs
  | some _ => false

/-- Shape of the numberTitle and uncountableTitle bindings: absent, a
dict, or a falsy value (all of which _localized_values accepts). -/
def wfOptMap : Option Json → Bool
  | none => true
  | some (.obj _) => true
  | some j => !j.truthy

/-- Well-formed ingredient details per the upstream interface: a dict
whose typ is text or absent and whose title bindings have the shapes
above.  Inside this fragment the only error _upsert_ingredient can raise
is the malformed-ingredient ValueError. -/
def wfDetails : Json → Bool
  | .obj kvs =>
    isTextOrNull ((jlookup kvs "typ").getD .null) &&
      wfTitleMap (jlookup kvs "localizedTitle") &&
      wfOptMap (jlookup kvs "numberTitle") &&
      wfOptMap (jlookup kvs "uncountableTitle")
  | _ => false

/-- The details dict of one entry of the ingredients list:
ingredient.get(ingredient-key, empty dict) of line 216. -/
def entryDetails : Json → Json
  | .obj kvs => (jlookup kvs "ingredient").getD (Json.obj [])
  | _ => Json.obj []

/-- A well-formed entry of the ingredients list: a dict whose details are
well-formed. -/
def wfEntry : Json → Bool
  | .obj kvs => wfDetails ((jlookup kvs "ingredient").getD (Json.obj []))
  | _ => false

/-- The malformed-ingredient condition of the claims: the details lack a
typ entirely, and the localizedTitle dict (when present at all) has no
non-empty title in any language. -/
def malformedDetails : Json → Bool
  | .obj kvs =>
    (jlookup kvs "typ").isNone &&
      (match jlookup kvs "localizedTitle" with
       | none => true
       | some (.obj lt) => langOrder.all (fun lang => emptyText ((jlookup lt lang).getD .null))
       | some _ => false)
  | _ => false

/-- A list entry whose details are malformed. -/
def malformedEntry (ing : Json) : Bool :=
  malformedDetails (entryDetails ing)

/-- The title of one language as the claim reads it: the localizedTitle
dict entry for that language when it is a string. -/
def specTitle (d : Json) (lang : String) : Option String :=
  match d with
  | .obj kvs =>
    match jlookup kvs "localizedTitle" with
    | some (.obj lt) =>
      match jlookup lt lang with
      | some (.str s) => some s
      | _ => none
    | _ => none
  | _ => none

/-- The first title, searched in the given language order, that is a
non-empty string. -/
def specFirstTitle (title? : String → Option String) : List String → Option String
  | [] => none
  | lang :: rest =>
    match (title? lang).filter (fun s => s ≠ "") with
    | some s => some s
    | none => specFirstTitle title? rest

/-- Fallback branch of the spec sentence: the first non-empty localized
title in language order gives the key, lower-cased with its whitespace
runs collapsed to single underscores; with no such title the
malformed-ingredient failure is raised. -/
def specFallbackKey (d : Json) : Except Err String :=
  match specFirstTitle (specTitle d) langOrder with
  | some s => .ok (collapseWs s)
  | none => .error .malformedIngredient

/-- Key derivation as the spec sentence describes it (amended): a
non-empty string typ is the key; otherwise the fallback above. -/
def canonicalKeySpec (d : Json) : Except Err String :=
  match d with
  | .obj kvs =>
    match jlookup kvs "typ" with
    | some (.str t) =>
      if t ≠ "" then .ok t
      else specFallbackKey d
    | _ => specFallbackKey d
  | _ => .error .attrErr

/-- One mutating call against the store. -/
inductive Op where
  | addOne : RecipeInDb → Op
  | addMany : List RecipeInDb → Op

/-- State reached after one call (a failed call leaves the rolled-back
state). -/
def applyOp (s : RepoState) : Op → RepoState
  | .addOne r => (riAdd s r).1
  | .addMany rs => (riAddList s rs).1

/-- State after a sequence of add and add_list calls on a fresh store. -/
def runOps (ops : List Op) : RepoState :=
  ops.foldl applyOp initialState

/-- The primary keys of the ingredients table. -/
def ingKeys (t : Tables) : List String :=
  t.ingredients.map (fun r => r.key)

/-! Concrete payloads, used to instantiate the theorems below on closed
inputs. -/

/-- The tomato ingredient details of the test suite
(repositories_test.py, test_ingredients_are_reused). -/
def tomatoDetails : Json :=
  Json.obj [("typ", Json.str "tomato"),
            ("localizedTitle", Json.obj [("de", Json.str "Tomate"), ("en", Json.str "Tomato")]),
            ("numberTitle", Json.obj [("de", Json.str "Tomaten")]),
            ("category", Json.str "vegetable")]

/-- A minimal valid payload: an id and nothing else. -/
def wData1 : Json := Json.obj [("_id", Json.obj [("$oid", Json.str "1")])]

/-- The recipe for wData1, dated 2024-01-01. -/
def wRec1 : RecipeInDb := ⟨"2024-01-01", wData1⟩

/-- One ingredients-list entry: one piece of tomato. -/
def wEntryT : Json :=
  Json.obj [("quantity", Json.num 1),
            ("measure", Json.str "piece"),
            ("ingredient", tomatoDetails)]

/-- A payload with one tomato ingredient at position 0. -/
def wDataT : Json :=
  Json.obj [("_id", Json.obj [("$oid", Json.str "1")]),
            ("ingredients", Json.arr [wEntryT])]

/-- The recipe for wDataT. -/
def wRecT : RecipeInDb := ⟨"2024-01-01", wDataT⟩

/-- An ingredients-list entry whose details are the empty dict: no typ
and no localized title at all. -/
def badEntry : Json := Json.obj [("ingredient", Json.obj [])]

/-- A payload that is valid in the sense of claim C1 (it carries a string
id) but whose single ingredient is malformed. -/
def badData : Json :=
  Json.obj [("_id", Json.obj [("$oid", Json.str "2")]),
            ("ingredients", Json.arr [badEntry])]

/-- The recipe for badData. -/
def badRec : RecipeInDb := ⟨"2024-01-01", badData⟩

/-- Ingredient details whose numberTitle was recorded as a dict holding
one empty string. -/
def emptyPluralDetails : Json :=
  Json.obj [("typ", Json.str "salt"),
            ("numberTitle", Json.obj [("en", Json.str "")])]

/-- The same ingredient with no numberTitle recorded at all. -/
def noPluralDetails : Json :=
  Json.obj [("typ", Json.str "salt")]

/-- A recipe carrying the empty-string-plural ingredient. -/
def emptyPluralRec : RecipeInDb :=
  ⟨"2024-01-01",
   Json.obj [("_id", Json.obj [("$oid", Json.str "1")]),
             ("ingredients", Json.arr [Json.obj [("ingredient", emptyPluralDetails)]])]⟩

/-- A recipe carrying the no-plural ingredient. -/
def noPluralRec : RecipeInDb :=
  ⟨"2024-01-01",
   Json.obj [("_id", Json.obj [("$oid", Json.str "1")]),
             ("ingredients", Json.arr [Json.obj [("ingredient", noPluralDetails)]])]⟩

/-- The ingredient row written for tomatoDetails. -/
def tomatoRow : IngredientRow :=
  ⟨"tomato", Json.str "tomato", Json.str "vegetable",
   ⟨Json.str "Tomato", Json.str "Tomate", Json.null, Json.null, Json.null⟩,
   ⟨Json.null, Json.str "Tomaten", Json.null, Json.null, Json.null⟩,
   Loc5.nulls⟩

/-- An unrelated stored ingredient row with key old. -/
def oldIngRow : IngredientRow :=
  ⟨"old", Json.null, Json.null, Loc5.nulls, Loc5.nulls, Loc5.nulls⟩

/-- A prior state for recipe id 1: an older version with a stale link at
position 5 against the ingredient with key old. -/
def staleTables : Tables :=
  ⟨[⟨"1", "2020-05-05", Loc5.nulls, Json.null⟩],
   [oldIngRow],
   [⟨"1", "old", Json.null, Json.null, 5⟩]⟩

/-- The repository state after adding wRec1 to a fresh store. -/
def wState1 : RepoState :=
  ⟨⟨[⟨"1", "2024-01-01", Loc5.nulls, wData1⟩], [], []⟩, some ⟨[], [], []⟩⟩

/-- Ingredient details with a present but empty typ and an English title. -/
def emptyTypDetails : Json :=
  Json.obj [("typ", Json.str ""), ("localizedTitle", Json.obj [("en", Json.str "Salt")])]

/-- The tables written for wRecT into an empty store. -/
def wTablesFresh : Tables :=
  ⟨[⟨"1", "2024-01-01", Loc5.nulls, wDataT⟩], [tomatoRow],
   [⟨"1", "tomato", Json.num 1, Json.str "piece", 0⟩]⟩

/-- The tables written for wRecT over staleTables. -/
def wTablesStale : Tables :=
  ⟨[⟨"1", "2024-01-01", Loc5.nulls, wDataT⟩], [oldIngRow, tomatoRow],
   [⟨"1", "tomato", Json.num 1, Json.str "piece", 0⟩]⟩

/-- The ingredient row stored for emptyPluralDetails: the plural form was
recorded, as an empty string in the en column. -/
def saltRowEmptyPlural : IngredientRow :=
  ⟨"salt", Json.str "salt", Json.null, Loc5.nulls,
   ⟨Json.str "", Json.null, Json.null, Json.null, Json.null⟩, Loc5.nulls⟩

/-- The record list_ingredients returns for saltRowEmptyPlural: the
number_title comes back absent. -/
def saltRecord : IngredientRecord :=
  ⟨"salt", some "salt", none, ⟨none, none, none, none, none⟩, none, none⟩

/-! Helper lemmas. -/

theorem exc_ok_bind {α β : Type} (a : α) (f : α → Except Err β) :
    (Except.ok a >>= f) = f a := rfl

theorem exc_err_bind {α β : Type} (e : Err) (f : α → Except Err β) :
    ((Except.error e : Except Err α) >>= f) = .error e := rfl

theorem exc_bind_ok_elim {α β : Type} {e : Except Err α} {f : α → Except Err β} {b : β}
    (h : (e >>= f) = .ok b) : ∃ a, e = .ok a ∧ f a = .ok b := by
  cases e with
  | ok a => exact ⟨a, rfl, h⟩
  | error _ => exact absurd h (by simp [exc_err_bind])

theorem find?_upsertRecipeRow (tbl : List RecipeRow) (row : RecipeRow) :
    (upsertRecipeRow tbl row).find? (fun r => r.id = row.id) = some row := by
  induction tbl with
  | nil => simp [upsertRecipeRow, List.find?]
  | cons r rest ih =>
    by_cases h : r.id = row.id
    · simp [upsertRecipeRow, h, List.find?]
    · simp [upsertRecipeRow, h, List.find?, ih]

theorem find?_upsertIngRow (tbl : List IngredientRow) (row : IngredientRow) :
    (upsertIngRow tbl row).find? (fun r => r.key = row.key) = some row := by
  induction tbl with
  | nil => simp [upsertIngRow, List.find?]
  | cons r rest ih =>
    by_cases h : r.key = row.key
    · simp [upsertIngRow, h, List.find?]
    · simp [upsertIngRow, h, List.find?, ih]

theorem mem_upsertRecipeRow (tbl : List RecipeRow) (row : RecipeRow) :
    row ∈ upsertRecipeRow tbl row := by
  induction tbl with
  | nil => simp [upsertRecipeRow]
  | cons r rest ih =>
    by_cases h : r.id = row.id
    · simp [upsertRecipeRow, h]
    · simp only [upsertRecipeRow, if_neg h]
      exact List.mem_cons_of_mem r ih

theorem keys_mem_upsertIngRow {tbl : List IngredientRow} {row : IngredientRow} {a : String}
    (h : a ∈ (upsertIngRow tbl row).map (fun r => r.key)) :
    a ∈ tbl.map (fun r => r.key) ∨ a = row.key := by
  induction tbl with
  | nil => simpa [upsertIngRow] using h
  | cons r rest ih =>
    by_cases hk : r.key = row.key
    · simp only [upsertIngRow, if_pos hk, List.map_cons, List.mem_cons] at h ⊢
      rcases h with h | h
      · exact Or.inr h
      · exact Or.inl (Or.inr h)
    · simp only [upsertIngRow, if_neg hk, List.map_cons, List.mem_cons] at h ⊢
      rcases h with h | h
      · exact Or.inl (Or.inl h)
      · rcases ih h with h' | h'
        · exact Or.inl (Or.inr h')
        · exact Or.inr h'

theorem nodup_upsertIngRow {tbl : List IngredientRow} (row : IngredientRow)
    (h : (tbl.map (fun r => r.key)).Nodup) :
    ((upsertIngRow tbl row).map (fun r => r.key)).Nodup := by
  induction tbl with
  | nil => simp [upsertIngRow]
  | cons r rest ih =>
    simp only [List.map_cons, List.nodup_cons] at h
    by_cases hk : r.key = row.key
    · simp only [upsertIngRow, if_pos hk, List.map_cons, List.nodup_cons]
      exact ⟨hk ▸ h.1, h.2⟩
    · simp only [upsertIngRow, if_neg hk, List.map_cons, List.nodup_cons]
      refine ⟨fun hm => ?_, ih h.2⟩
      rcases keys_mem_upsertIngRow hm with h' | h'
      · exact h.1 h'
      · exact hk h'

theorem upsertLinkRow_append {links : List LinkRow} {row : LinkRow}
    (h : ∀ l ∈ links, ¬(l.recipe_id = row.recipe_id ∧ l.position = row.position)) :
    upsertLinkRow links row = links ++ [row] := by
  induction links with
  | nil => simp [upsertLinkRow]
  | cons l rest ih =>
    have hl := h l (List.mem_cons_self l rest)
    simp only [upsertLinkRow, if_neg hl, List.cons_append, List.cons.injEq, true_and]
    exact ih (fun x hx => h x (List.mem_cons_of_mem l hx))

theorem deleteLinks_no_rid (links : List LinkRow) (rid : String) :
    ∀ l ∈ deleteLinks links rid, ¬ l.recipe_id = rid := by
  intro l hl
  have := List.of_mem_filter hl
  simpa using this

theorem filter_rid_of_no_rid {links : List LinkRow} {rid : String}
    (h : ∀ l ∈ links, ¬ l.recipe_id = rid) :
    links.filter (fun l => l.recipe_id = rid) = [] := by
  induction links with
  | nil => simp
  | cons l rest ih =>
    have hl := h l (List.mem_cons_self l rest)
    simp [List.filter_cons, hl, ih (fun x hx => h x (List.mem_cons_of_mem l hx))]

theorem filter_rid_of_all_rid {links : List LinkRow} {rid : String}
    (h : ∀ l ∈ links, l.recipe_id = rid) :
    links.filter (fun l => l.recipe_id = rid) = links := by
  induction links with
  | nil => simp
  | cons l rest ih =>
    have hl := h l (List.mem_cons_self l rest)
    simp [List.filter_cons, hl, ih (fun x hx => h x (List.mem_cons_of_mem l hx))]

theorem upsertIngredient_ok_elim {tbl : List IngredientRow} {d : Json}
    {res : List IngredientRow × String}
    (h : upsertIngredient tbl d = .ok res) :
    ∃ row, ingRowOf d = .ok row ∧ res = (upsertIngRow tbl row, row.key) := by
  unfold upsertIngredient at h
  obtain ⟨row, hr, h⟩ := exc_bind_ok_elim h
  refine ⟨row, hr, ?_⟩
  simpa using h.symm

theorem processIngredient_ok_elim {rid : String} {pos : Nat}
    {acc acc' : List IngredientRow × List LinkRow} {ing : Json}
    (h : processIngredient rid pos acc ing = .ok acc') :
    ∃ details row q m,
      ing.getD "ingredient" (Json.obj []) = .ok details ∧
      ingRowOf details = .ok row ∧
      ing.getD "quantity" .null = .ok q ∧
      ing.getD "measure" .null = .ok m ∧
      acc' = (upsertIngRow acc.1 row, upsertLinkRow acc.2 ⟨rid, row.key, q, m, pos⟩) := by
  unfold processIngredient at h
  obtain ⟨details, hd, h⟩ := exc_bind_ok_elim h
  obtain ⟨r, hr, h⟩ := exc_bind_ok_elim h
  obtain ⟨q, hq, h⟩ := exc_bind_ok_elim h
  obtain ⟨m, hm, h⟩ := exc_bind_ok_elim h
  obtain ⟨row, hrow, hres⟩ := upsertIngredient_ok_elim hr
  refine ⟨details, row, q, m, hd, hrow, hq, hm, ?_⟩
  simp only [hres] at h
  simpa using h.symm

theorem processIngredients_cons (rid : String) (pos : Nat)
    (acc : List IngredientRow × List LinkRow) (ing : Json) (rest : List Json) :
    processIngredients rid pos acc (ing :: rest) =
      (processIngredient rid pos acc ing >>= fun acc' =>
        processIngredients rid (pos + 1) acc' rest) := rfl

theorem upsertRecipe_ok_elim {t : Tables} {r : RecipeInDb} {t' : Tables}
    (h : upsertRecipe t r = .ok t') :
    ∃ rid lt ings acc,
      recipeId r.data = .ok rid ∧
      recipeTitle r.data = .ok lt ∧
      ingredientsListOf r.data = .ok ings ∧
      processIngredients rid 0 (t.ingredients, deleteLinks t.links rid) ings = .ok acc ∧
      t' = ⟨upsertRecipeRow t.recipes ⟨rid, r.date, lt, r.data⟩, acc.1, acc.2⟩ := by
  unfold upsertRecipe at h
  obtain ⟨rid, h1, h⟩ := exc_bind_ok_elim h
  obtain ⟨lt, h2, h⟩ := exc_bind_ok_elim h
  obtain ⟨ings, h3, h⟩ := exc_bind_ok_elim h
  obtain ⟨acc, h4, h⟩ := exc_bind_ok_elim h
  refine ⟨rid, lt, ings, acc, h1, h2, h3, h4, ?_⟩
  simpa using h.symm

theorem upsertRecipe_err_intro {t : Tables} {r : RecipeInDb} {rid : String}
    {lt : Loc5} {ings : List Json} {e : Err}
    (h1 : recipeId r.data = .ok rid) (h2 : recipeTitle r.data = .ok lt)
    (h3 : ingredientsListOf r.data = .ok ings)
    (h4 : processIngredients rid 0 (t.ingredients, deleteLinks t.links rid) ings = .error e) :
    upsertRecipe t r = .error e := by
  unfold upsertRecipe
  rw [h1, exc_ok_bind, h2, exc_ok_bind, h3, exc_ok_bind, h4, exc_err_bind]

theorem riAdd_ok_elim {s : RepoState} {r : RecipeInDb} {s' : RepoState}
    (h : riAdd s r = (s', none)) :
    ∃ db', upsertRecipe s.db r = .ok db' ∧ s' = ⟨db', some s.db⟩ := by
  simp only [riAdd, createBackup] at h
  cases hu : upsertRecipe s.db r with
  | ok db' =>
    rw [hu] at h
    injection h with h1 h2
    exact ⟨db', rfl, h1.symm⟩
  | error e =>
    rw [hu] at h
    injection h with h1 h2
    exact Option.noConfusion h2

theorem riAdd_err_intro {s : RepoState} {r : RecipeInDb} {e : Err}
    (h : upsertRecipe s.db r = .error e) :
    riAdd s r = (⟨s.db, some s.db⟩, some e) := by
  simp only [riAdd, createBackup, h]

/-- The loop of _upsert_recipe appends one fresh link per list position:
starting from links whose rows for this recipe id all sit below the
current position, a successful run returns those links followed by a
block of fresh rows for this recipe id, one per position, and the fresh
block depends only on the entries, not on the tables the run started
from. -/
theorem procIngs_links :
    ∀ (ings : List Json) (rid : String) (pos : Nat)
      (it : List IngredientRow) (links : List LinkRow)
      (res : List IngredientRow × List LinkRow),
      processIngredients rid pos (it, links) ings = .ok res →
      (∀ l ∈ links, l.recipe_id = rid → l.position < pos) →
      ∃ fresh : List LinkRow,
        res.2 = links ++ fresh ∧
        (∀ l ∈ fresh, l.recipe_id = rid) ∧
        fresh.map (fun l => l.position) = List.range' pos ings.length ∧
        (∀ (it₂ : List IngredientRow) (links₂ : List LinkRow)
            (res₂ : List IngredientRow × List LinkRow),
          processIngredients rid pos (it₂, links₂) ings = .ok res₂ →
          (∀ l ∈ links₂, l.recipe_id = rid → l.position < pos) →
          res₂.2 = links₂ ++ fresh)
  | [], rid, pos, it, links, res, h, hinv => by
    simp only [processIngredients] at h
    injection h with h
    refine ⟨[], by rw [← h]; simp, by simp, by simp [List.range'], ?_⟩
    intro it₂ links₂ res₂ h₂ hinv₂
    simp only [processIngredients] at h₂
    injection h₂ with h₂
    rw [← h₂]
    simp
  | ing :: rest, rid, pos, it, links, res, h, hinv => by
    rw [processIngredients_cons] at h
    obtain ⟨acc', hstep, hrest⟩ := exc_bind_ok_elim h
    obtain ⟨details, row, q, m, hd, hrow, hq, hm, hacc⟩ := processIngredient_ok_elim hstep
    have happ : upsertLinkRow links ⟨rid, row.key, q, m, pos⟩ =
        links ++ [⟨rid, row.key, q, m, pos⟩] := by
      apply upsertLinkRow_append
      intro l hl hc
      have h1 := hinv l hl hc.1
      rw [hc.2] at h1
      exact Nat.lt_irrefl pos h1
    have hinv' : ∀ l ∈ links ++ [(⟨rid, row.key, q, m, pos⟩ : LinkRow)],
        l.recipe_id = rid → l.position < pos + 1 := by
      intro l hl hr
      rcases List.mem_append.mp hl with hl | hl
      · exact Nat.lt_succ_of_lt (hinv l hl hr)
      · rw [List.mem_singleton.mp hl]
        exact Nat.lt_succ_self pos
    rw [hacc, happ] at hrest
    obtain ⟨fresh', hres2, hfr, hpos, hind⟩ :=
      procIngs_links rest rid (pos + 1) _ _ _ hrest hinv'
    refine ⟨⟨rid, row.key, q, m, pos⟩ :: fresh', ?_, ?_, ?_, ?_⟩
    · rw [hres2, List.append_assoc]
      rfl
    · intro l hl
      rcases List.mem_cons.mp hl with hl | hl
      · rw [hl]
      · exact hfr l hl
    · simp only [List.map_cons, hpos, List.length_cons]
      rfl
    · intro it₂ links₂ res₂ h₂ hinv₂
      rw [processIngredients_cons] at h₂
      obtain ⟨acc₂, hstep₂, hrest₂⟩ := exc_bind_ok_elim h₂
      obtain ⟨details₂, row₂, q₂, m₂, hd₂, hrow₂, hq₂, hm₂, hacc₂⟩ :=
        processIngredient_ok_elim hstep₂
      rw [hd] at hd₂
      injection hd₂ with hdd
      rw [← hdd] at hrow₂
      rw [hrow] at hrow₂
      injection hrow₂ with hrr
      rw [hq] at hq₂
      injection hq₂ with hqq
      rw [hm] at hm₂
      injection hm₂ with hmm
      rw [← hrr, ← hqq, ← hmm] at hacc₂
      have happ₂ : upsertLinkRow links₂ ⟨rid, row.key, q, m, pos⟩ =
          links₂ ++ [⟨rid, row.key, q, m, pos⟩] := by
        apply upsertLinkRow_append
        intro l hl hc
        have h1 := hinv₂ l hl hc.1
        rw [hc.2] at h1
        exact Nat.lt_irrefl pos h1
      have hinv₂' : ∀ l ∈ links₂ ++ [(⟨rid, row.key, q, m, pos⟩ : LinkRow)],
          l.recipe_id = rid → l.position < pos + 1 := by
        intro l hl hr
        rcases List.mem_append.mp hl with hl | hl
        · exact Nat.lt_succ_of_lt (hinv₂ l hl hr)
        · rw [List.mem_singleton.mp hl]
          exact Nat.lt_succ_self pos
      rw [hacc₂, happ₂] at hrest₂
      have hres₂2 := hind _ _ _ hrest₂ hinv₂'
      rw [hres₂2, List.append_assoc]
      rfl

/-- The loop preserves distinctness of the ingredient primary keys. -/
theorem procIngs_nodup :
    ∀ (ings : List Json) (rid : String) (pos : Nat)
      (it : List IngredientRow) (links : List LinkRow)
      (res : List IngredientRow × List LinkRow),
      processIngredients rid pos (it, links) ings = .ok res →
      (it.map (fun r => r.key)).Nodup →
      (res.1.map (fun r => r.key)).Nodup
  | [], rid, pos, it, links, res, h, hnd => by
    simp only [processIngredients] at h
    injection h with h
    rw [← h]
    exact hnd
  | ing :: rest, rid, pos, it, links, res, h, hnd => by
    rw [processIngredients_cons] at h
    obtain ⟨acc', hstep, hrest⟩ := exc_bind_ok_elim h
    obtain ⟨details, row, q, m, hd, hrow, hq, hm, hacc⟩ := processIngredient_ok_elim hstep
    rw [hacc] at hrest
    exact procIngs_nodup rest rid (pos + 1) _ _ _ hrest (nodup_upsertIngRow row hnd)

theorem upsertRecipe_nodup {t : Tables} {r : RecipeInDb} {t' : Tables}
    (h : upsertRecipe t r = .ok t') (hnd : (ingKeys t).Nodup) :
    (ingKeys t').Nodup := by
  obtain ⟨rid, lt, ings, acc, h1, h2, h3, h4, h5⟩ := upsertRecipe_ok_elim h
  rw [h5]
  exact procIngs_nodup ings rid 0 _ _ _ h4 hnd

theorem upsertRecipes_nodup :
    ∀ (rs : List RecipeInDb) {t t' : Tables},
      upsertRecipes t rs = .ok t' → (ingKeys t).Nodup → (ingKeys t').Nodup
  | [], t, t', h, hnd => by
    simp only [upsertRecipes] at h
    injection h with h
    rw [← h]
    exact hnd
  | r :: rest, t, t', h, hnd => by
    simp only [upsertRecipes] at h
    obtain ⟨t₁, h1, h2⟩ := exc_bind_ok_elim h
    exact upsertRecipes_nodup rest h2 (upsertRecipe_nodup h1 hnd)

theorem applyOp_nodup {s : RepoState} (op : Op) (hnd : (ingKeys s.db).Nodup) :
    (ingKeys (applyOp s op).db).Nodup := by
  cases op with
  | addOne r =>
    show (ingKeys (riAdd s r).1.db).Nodup
    simp only [riAdd, createBackup]
    cases hu : upsertRecipe s.db r with
    | ok db' => exact upsertRecipe_nodup hu hnd
    | error e => exact hnd
  | addMany rs =>
    show (ingKeys (riAddList s rs).1.db).Nodup
    simp only [riAddList, createBackup]
    cases hu : upsertRecipes s.db rs with
    | ok db' => exact upsertRecipes_nodup rs hu hnd
    | error e => exact hnd

theorem runOps_nodup (ops : List Op) : (ingKeys (runOps ops).db).Nodup := by
  have main : ∀ (l : List Op) (s : RepoState), (ingKeys s.db).Nodup →
      (ingKeys (l.foldl applyOp s).db).Nodup := by
    intro l
    induction l with
    | nil => intro s h; exact h
    | cons op rest ih =>
      intro s h
      exact ih (applyOp s op) (applyOp_nodup op h)
  exact main ops initialState (by simp [initialState, ingKeys])

theorem scanTitles_empty {lt : List (String × Json)} :
    ∀ (langs : List String),
      (∀ lang ∈ langs, emptyText ((jlookup lt lang).getD .null) = true) →
      scanTitles (Json.obj lt) langs = .error .malformedIngredient
  | [], _ => rfl
  | lang :: rest, h => by
    have hl := h lang (List.mem_cons_self lang rest)
    have htail := scanTitles_empty rest (fun x hx => h x (List.mem_cons_of_mem lang hx))
    simp only [scanTitles, Json.getD, exc_ok_bind]
    cases hv : (jlookup lt lang).getD .null with
    | null => simpa [Json.truthy] using htail
    | str s =>
      rw [hv] at hl
      have hs : s = "" := by simpa [emptyText] using hl
      rw [hs]
      simpa [Json.truthy] using htail
    | bool b => rw [hv] at hl; simp [emptyText] at hl
    | num n => rw [hv] at hl; simp [emptyText] at hl
    | arr xs => rw [hv] at hl; simp [emptyText] at hl
    | obj kvs => rw [hv] at hl; simp [emptyText] at hl

theorem scanTitles_wf {lt : List (String × Json)} :
    ∀ (langs : List String),
      (∀ lang ∈ langs, isTextOrNull ((jlookup lt lang).getD .null) = true) →
      (∃ s, scanTitles (Json.obj lt) langs = .ok s) ∨
        scanTitles (Json.obj lt) langs = .error .malformedIngredient
  | [], _ => Or.inr rfl
  | lang :: rest, h => by
    have hl := h lang (List.mem_cons_self lang rest)
    have htail := scanTitles_wf rest (fun x hx => h x (List.mem_cons_of_mem lang hx))
    simp only [scanTitles, Json.getD, exc_ok_bind]
    cases hv : (jlookup lt lang).getD .null with
    | null => simpa [Json.truthy] using htail
    | str s =>
      by_cases hs : s = ""
      · rw [hs]
        simpa [Json.truthy] using htail
      · exact Or.inl ⟨collapseWs s, by simp [Json.truthy, hs]⟩
    | bool b => rw [hv] at hl; simp [isTextOrNull] at hl
    | num n => rw [hv] at hl; simp [isTextOrNull] at hl
    | arr xs => rw [hv] at hl; simp [isTextOrNull] at hl
    | obj kvs => rw [hv] at hl; simp [isTextOrNull] at hl

theorem malformed_key {d : Json} (h : malformedDetails d = true) :
    canonicalIngredientKey d = .error .malformedIngredient := by
  cases d with
  | obj kvs =>
    simp only [malformedDetails, Bool.and_eq_true] at h
    obtain ⟨htyp, hlt⟩ := h
    have htyp' : jlookup kvs "typ" = none := by
      cases hj : jlookup kvs "typ" with
      | none => rfl
      | some v => rw [hj] at htyp; simp at htyp
    simp only [canonicalIngredientKey, Json.getD, htyp', Option.getD_none, exc_ok_bind,
      Json.truthy, Bool.false_eq_true, if_false]
    cases hv : jlookup kvs "localizedTitle" with
    | none => rfl
    | some v =>
      rw [hv] at hlt
      cases v with
      | obj lt =>
        simp only [Option.getD_some, exc_ok_bind]
        apply scanTitles_empty
        intro lang hlang
        have := List.all_eq_true.mp hlt lang (by simpa [langOrder] using hlang)
        simpa using this
      | null => simp at hlt
      | bool b => simp at hlt
      | num n => simp at hlt
      | str s => simp at hlt
      | arr xs => simp at hlt
  | null => simp [malformedDetails] at h
  | bool b => simp [malformedDetails] at h
  | num n => simp [malformedDetails] at h
  | str s => simp [malformedDetails] at h
  | arr xs => simp [malformedDetails] at h

theorem localizedValues_not_truthy {v : Json} (h : v.truthy = false) :
    localizedValues v = .ok Loc5.nulls := by
  simp [localizedValues, h]

theorem localizedValues_obj (kvs : List (String × Json)) :
    ∃ l5, localizedValues (Json.obj kvs) = .ok l5 := by
  unfold localizedValues
  by_cases h : (Json.obj kvs).truthy = true
  · rw [if_pos h]
    exact ⟨_, rfl⟩
  · rw [if_neg h]
    exact ⟨_, rfl⟩

theorem wf_canonicalKey {d : Json} (h : wfDetails d = true) :
    (∃ k, canonicalIngredientKey d = .ok k) ∨
      canonicalIngredientKey d = .error .malformedIngredient := by
  cases d with
  | obj kvs =>
    simp only [wfDetails, Bool.and_eq_true] at h
    obtain ⟨⟨⟨htyp, hlt⟩, hnt⟩, hut⟩ := h
    have fallback :
        (∃ k, scanTitles ((jlookup kvs "localizedTitle").getD (Json.obj [])) langOrder =
          Except.ok k) ∨
        scanTitles ((jlookup kvs "localizedTitle").getD (Json.obj [])) langOrder =
          Except.error Err.malformedIngredient := by
      cases hv : jlookup kvs "localizedTitle" with
      | none => exact Or.inr rfl
      | some v =>
        rw [hv] at hlt
        cases v with
        | obj lt =>
          simp only [Option.getD_some]
          apply scanTitles_wf
          intro lang hlang
          have := List.all_eq_true.mp (by simpa [wfTitleMap, wfLangValues] using hlt) lang
            (by simpa [langOrder] using hlang)
          simpa using this
        | null => simp [wfTitleMap] at hlt
        | bool b => simp [wfTitleMap] at hlt
        | num n => simp [wfTitleMap] at hlt
        | str s => simp [wfTitleMap] at hlt
        | arr xs => simp [wfTitleMap] at hlt
    cases hj : (jlookup kvs "typ").getD .null with
    | null =>
      simpa [canonicalIngredientKey, Json.getD, hj, exc_ok_bind, Json.truthy] using fallback
    | str s =>
      by_cases hs : s = ""
      · rw [hs] at hj
        simpa [canonicalIngredientKey, Json.getD, hj, exc_ok_bind, Json.truthy] using fallback
      · exact Or.inl ⟨s,
          by simp [canonicalIngredientKey, Json.getD, hj, exc_ok_bind, Json.truthy, hs, pyStrAtom]⟩
    | bool b => rw [hj] at htyp; simp [isTextOrNull] at htyp
    | num n => rw [hj] at htyp; simp [isTextOrNull] at htyp
    | arr xs => rw [hj] at htyp; simp [isTextOrNull] at htyp
    | obj kvs' => rw [hj] at htyp; simp [isTextOrNull] at htyp
  | null => simp [wfDetails] at h
  | bool b => simp [wfDetails] at h
  | num n => simp [wfDetails] at h
  | str s => simp [wfDetails] at h
  | arr xs => simp [wfDetails] at h

theorem wfOptMap_localizedValues {v? : Option Json} (h : wfOptMap v? = true) :
    ∃ l5, localizedValues (v?.getD .null) = .ok l5 := by
  cases v? with
  | none => exact ⟨Loc5.nulls, rfl⟩
  | some v =>
    cases v with
    | obj kvs => exact localizedValues_obj kvs
    | null => exact ⟨Loc5.nulls, rfl⟩
    | bool b => exact ⟨Loc5.nulls, localizedValues_not_truthy (by simpa [wfOptMap] using h)⟩
    | num n => exact ⟨Loc5.nulls, localizedValues_not_truthy (by simpa [wfOptMap] using h)⟩
    | str s => exact ⟨Loc5.nulls, localizedValues_not_truthy (by simpa [wfOptMap] using h)⟩
    | arr xs => exact ⟨Loc5.nulls, localizedValues_not_truthy (by simpa [wfOptMap] using h)⟩

theorem wfTitleMap_localizedValues {v? : Option Json} (h : wfTitleMap v? = true) :
    ∃ l5, localizedValues (v?.getD .null) = .ok l5 := by
  cases v? with
  | none => exact ⟨Loc5.nulls, rfl⟩
  | some v =>
    cases v with
    | obj kvs => exact localizedValues_obj kvs
    | null => simp [wfTitleMap] at h
    | bool b => simp [wfTitleMap] at h
    | num n => simp [wfTitleMap] at h
    | str s => simp [wfTitleMap] at h
    | arr xs => simp [wfTitleMap] at h

theorem wf_ingRowOf {d : Json} (h : wfDetails d = true) :
    ingRowOf d = .error .malformedIngredient ∨ ∃ row, ingRowOf d = .ok row := by
  rcases wf_canonicalKey h with ⟨k, hk⟩ | hk
  · cases d with
    | obj kvs =>
      simp only [wfDetails, Bool.and_eq_true] at h
      obtain ⟨⟨⟨htyp, hlt⟩, hnt⟩, hut⟩ := h
      obtain ⟨l1, hl1⟩ := wfTitleMap_localizedValues hlt
      obtain ⟨l2, hl2⟩ := wfOptMap_localizedValues hnt
      obtain ⟨l3, hl3⟩ := wfOptMap_localizedValues hut
      refine Or.inr ⟨⟨k, (jlookup kvs "typ").getD .null, (jlookup kvs "category").getD .null,
        l1, l2, l3⟩, ?_⟩
      unfold ingRowOf
      rw [hk, exc_ok_bind]
      simp only [Json.getD, exc_ok_bind, Option.getD_some]
      rw [hl1]
      simp only [exc_ok_bind]
      rw [hl2]
      simp only [exc_ok_bind]
      rw [hl3]
      simp only [exc_ok_bind]
    | null => simp [wfDetails] at h
    | bool b => simp [wfDetails] at h
    | num n => simp [wfDetails] at h
    | str s => simp [wfDetails] at h
    | arr xs => simp [wfDetails] at h
  · refine Or.inl ?_
    unfold ingRowOf
    rw [hk, exc_err_bind]

theorem wfEntry_step {ing : Json} (hwf : wfEntry ing = true) (rid : String) (pos : Nat)
    (acc : List IngredientRow × List LinkRow) :
    processIngredient rid pos acc ing = .error .malformedIngredient ∨
      ∃ acc', processIngredient rid pos acc ing = .ok acc' := by
  cases ing with
  | obj kvs =>
    have hdet : wfDetails ((jlookup kvs "ingredient").getD (Json.obj [])) = true := by
      simpa [wfEntry] using hwf
    rcases wf_ingRowOf hdet with hrow | ⟨row, hrow⟩
    · refine Or.inl ?_
      unfold processIngredient upsertIngredient
      simp only [Json.getD, exc_ok_bind]
      rw [hrow]
      simp only [exc_err_bind]
    · refine Or.inr ⟨(upsertIngRow acc.1 row,
        upsertLinkRow acc.2 ⟨rid, row.key, (jlookup kvs "quantity").getD .null,
          (jlookup kvs "measure").getD .null, pos⟩), ?_⟩
      unfold processIngredient upsertIngredient
      simp only [Json.getD, exc_ok_bind]
      rw [hrow]
      simp only [exc_ok_bind]
  | null => simp [wfEntry] at hwf
  | bool b => simp [wfEntry] at hwf
  | num n => simp [wfEntry] at hwf
  | str s => simp [wfEntry] at hwf
  | arr xs => simp [wfEntry] at hwf

theorem malformedEntry_step {ing : Json} (hwf : wfEntry ing = true)
    (hmal : malformedEntry ing = true) (rid : String) (pos : Nat)
    (acc : List IngredientRow × List LinkRow) :
    processIngredient rid pos acc ing = .error .malformedIngredient := by
  cases ing with
  | obj kvs =>
    have hkey := malformed_key (d := (jlookup kvs "ingredient").getD (Json.obj []))
      (by simpa [malformedEntry, entryDetails] using hmal)
    have hrow : ingRowOf ((jlookup kvs "ingredient").getD (Json.obj [])) =
        .error .malformedIngredient := by
      unfold ingRowOf
      rw [hkey, exc_err_bind]
    unfold processIngredient upsertIngredient
    simp only [Json.getD, exc_ok_bind]
    rw [hrow]
    simp only [exc_err_bind]
  | null => simp [wfEntry] at hwf
  | bool b => simp [wfEntry] at hwf
  | num n => simp [wfEntry] at hwf
  | str s => simp [wfEntry] at hwf
  | arr xs => simp [wfEntry] at hwf

theorem procIngs_malformed :
    ∀ (ings : List Json) (rid : String) (pos : Nat) (acc : List IngredientRow × List LinkRow),
      (∀ ing ∈ ings, wfEntry ing = true) →
      (∃ ing ∈ ings, malformedEntry ing = true) →
      processIngredients rid pos acc ings = .error .malformedIngredient
  | [], rid, pos, acc, hwf, hex => by simp at hex
  | ing :: rest, rid, pos, acc, hwf, hex => by
    have hw := hwf ing (List.mem_cons_self ing rest)
    by_cases hm : malformedEntry ing = true
    · rw [processIngredients_cons, malformedEntry_step hw hm rid pos acc, exc_err_bind]
    · rcases wfEntry_step hw rid pos acc with he | ⟨acc', ha⟩
      · rw [processIngredients_cons, he, exc_err_bind]
      · rw [processIngredients_cons, ha, exc_ok_bind]
        apply procIngs_malformed rest rid (pos + 1) acc'
          (fun x hx => hwf x (List.mem_cons_of_mem ing hx))
        rcases hex with ⟨i, hi, hmi⟩
        rcases List.mem_cons.mp hi with hi | hi
        · rw [hi] at hmi
          exact absurd hmi hm
        · exact ⟨i, hi, hmi⟩

theorem scanTitles_eq_spec {lt : List (String × Json)} :
    ∀ (langs : List String),
      (∀ lang ∈ langs, isTextOrNull ((jlookup lt lang).getD .null) = true) →
      scanTitles (Json.obj lt) langs =
        (match specFirstTitle (fun lang =>
            match jlookup lt lang with
            | some (.str s) => some s
            | _ => none) langs with
         | some s => Except.ok (collapseWs s)
         | none => Except.error Err.malformedIngredient)
  | [], _ => rfl
  | lang :: rest, h => by
    have hl := h lang (List.mem_cons_self lang rest)
    have ih := scanTitles_eq_spec rest (fun x hx => h x (List.mem_cons_of_mem lang hx))
    simp only [scanTitles, Json.getD, exc_ok_bind]
    cases hv : jlookup lt lang with
    | none => simpa [Json.truthy, specFirstTitle, hv] using ih
    | some v =>
      rw [hv] at hl
      cases v with
      | null => simpa [Json.truthy, specFirstTitle, hv] using ih
      | str s =>
        by_cases hs : s = ""
        · rw [hs]
          simpa [Json.truthy, specFirstTitle, hv, hs, Option.filter] using ih
        · simp [Json.truthy, specFirstTitle, hv, hs, Option.filter]
      | bool b => simp [isTextOrNull] at hl
      | num n => simp [isTextOrNull] at hl
      | arr xs => simp [isTextOrNull] at hl
      | obj kvs => simp [isTextOrNull] at hl

theorem ingRecords_mem :
    ∀ {l : List IngredientRow} {recs : List IngredientRecord} {row : IngredientRow},
      ingRecords l = .ok recs → row ∈ l →
      ∃ r₀, r₀ ∈ recs ∧ recordOfIngRow row = .ok r₀ := by
  intro l
  induction l with
  | nil => intro recs row _ hm; cases hm
  | cons row' rest ih =>
    intro recs row h hm
    simp only [ingRecords] at h
    obtain ⟨r, hr, h⟩ := exc_bind_ok_elim h
    obtain ⟨rs, hrs, h⟩ := exc_bind_ok_elim h
    have hrecs : recs = r :: rs := by simpa using h.symm
    rcases List.mem_cons.mp hm with hm | hm
    · exact ⟨r, by rw [hrecs]; exact List.mem_cons_self r rs, by rw [hm]; exact hr⟩
    · obtain ⟨r₀, hr₀, hrec⟩ := ih hrs hm
      exact ⟨r₀, by rw [hrecs]; exact List.mem_cons_of_mem r hr₀, hrec⟩

theorem asOptText_truthy {v : Json} {o : Option String} (h : asOptText v = .ok o) :
    optTruthy o = !emptyText v := by
  cases v with
  | null =>
    have : o = none := by simpa [asOptText] using h.symm
    rw [this]
    rfl
  | str s =>
    have : o = some s := by simpa [asOptText] using h.symm
    rw [this]
    rfl
  | bool b => simp [asOptText] at h
  | num n => simp [asOptText] at h
  | arr xs => simp [asOptText] at h
  | obj kvs => simp [asOptText] at h

theorem loc5ToLocalized_anyTruthy {l : Loc5} {ls : LocalizedString}
    (h : loc5ToLocalized l = .ok ls) :
    ls.anyTruthy = !l.allEmptyText := by
  unfold loc5ToLocalized at h
  obtain ⟨o1, h1, h⟩ := exc_bind_ok_elim h
  obtain ⟨o2, h2, h⟩ := exc_bind_ok_elim h
  obtain ⟨o3, h3, h⟩ := exc_bind_ok_elim h
  obtain ⟨o4, h4, h⟩ := exc_bind_ok_elim h
  obtain ⟨o5, h5, h⟩ := exc_bind_ok_elim h
  have hls : ls = ⟨o1, o2, o3, o4, o5⟩ := by simpa using h.symm
  rw [hls]
  show (optTruthy o1 || optTruthy o2 || optTruthy o3 || optTruthy o4 || optTruthy o5) =
    !l.allEmptyText
  rw [asOptText_truthy h1, asOptText_truthy h2, asOptText_truthy h3, asOptText_truthy h4,
    asOptText_truthy h5]
  unfold Loc5.allEmptyText
  cases emptyText l.en <;> cases emptyText l.de <;> cases emptyText l.es <;>
    cases emptyText l.fr <;> cases emptyText l.pt <;> rfl

theorem recordOfIngRow_plural {row : IngredientRow} {r₀ : IngredientRecord}
    (h : recordOfIngRow row = .ok r₀) :
    (r₀.number_title = none ↔ row.number_title.allEmptyText = true) ∧
      (r₀.uncountable_title = none ↔ row.uncountable_title.allEmptyText = true) := by
  unfold recordOfIngRow at h
  obtain ⟨lt, hlt, h⟩ := exc_bind_ok_elim h
  obtain ⟨nt, hnt, h⟩ := exc_bind_ok_elim h
  obtain ⟨ut, hut, h⟩ := exc_bind_ok_elim h
  obtain ⟨typ, htyp, h⟩ := exc_bind_ok_elim h
  obtain ⟨cat, hcat, h⟩ := exc_bind_ok_elim h
  have hr : r₀ = ⟨row.key, typ, cat, lt,
      if nt.anyTruthy then some nt else none,
      if ut.anyTruthy then some ut else none⟩ := by simpa using h.symm
  rw [hr]
  have hn := loc5ToLocalized_anyTruthy hnt
  have hu := loc5ToLocalized_anyTruthy hut
  constructor
  · show (if nt.anyTruthy then some nt else none) = none ↔ _
    cases hae : row.number_title.allEmptyText with
    | true =>
      rw [hae] at hn
      simp only [Bool.not_true] at hn
      simp [hn]
    | false =>
      rw [hae] at hn
      simp only [Bool.not_false] at hn
      simp [hn]
  · show (if ut.anyTruthy then some ut else none) = none ↔ _
    cases hae : row.uncountable_title.allEmptyText with
    | true =>
      rw [hae] at hu
      simp only [Bool.not_true] at hu
      simp [hu]
    | false =>
      rw [hae] at hu
      simp only [Bool.not_false] at hu
      simp [hu]

theorem riAddList_err_state {s : RepoState} {rs : List RecipeInDb} {e : Err}
    (h : (riAddList s rs).2 = some e) :
    (riAddList s rs).1 = ⟨s.db, some s.db⟩ := by
  simp only [riAddList, createBackup] at h ⊢
  cases hu : upsertRecipes s.db rs with
  | ok db' =>
    rw [hu] at h
    exact Option.noConfusion h
  | error e' => rfl

/-! The claims. -/

/-- C1, counterexample: the claim quantifies over every payload carrying
a string id at the _id oid field, but for badData (which does carry one)
add raises the malformed-ingredient error, so get afterwards finds
nothing: no present record with the added date and payload is returned. -/
theorem c1_add_get_counterexample :
    recipeId badData = .ok "2" ∧
      (riAdd initialState badRec).2 = some Err.malformedIngredient ∧
      riGet (riAdd initialState badRec).1 "2" = none :=
  ⟨rfl, rfl, rfl⟩

/-- C1, amended: for every state, payload and date such that add succeeds
(in particular the payload carries a string id and every ingredient has a
derivable key), get with the payload id returns a present record whose
date and raw payload are exactly the added ones. -/
theorem c1_add_get_roundtrip :
    ∀ (s : RepoState) (r : RecipeInDb) (s' : RepoState) (rid : String),
      riAdd s r = (s', none) → recipeId r.data = .ok rid →
      riGet s' rid = some ⟨r.date, r.data⟩ := by
  intro s r s' rid hadd hid
  obtain ⟨db', hdb, hs'⟩ := riAdd_ok_elim hadd
  obtain ⟨rid', lt, ings, acc, h1, h2, h3, h4, h5⟩ := upsertRecipe_ok_elim hdb
  rw [hid] at h1
  injection h1 with h1
  subst h1
  have hfind := find?_upsertRecipeRow s.db.recipes ⟨rid, r.date, lt, r.data⟩
  rw [hs']
  unfold riGet
  show ((db'.recipes.find? (fun row => row.id = rid)).map rowToRecipe) = _
  rw [h5]
  show ((upsertRecipeRow s.db.recipes ⟨rid, r.date, lt, r.data⟩).find?
    (fun row => row.id = rid)).map rowToRecipe = _
  rw [hfind]
  rfl

/-- C1, witness for the amended theorem at a concrete input. -/
theorem c1_add_get_roundtrip_witness :
    riAdd initialState wRec1 = (wState1, none) ∧
      recipeId wRec1.data = .ok "1" ∧
      riGet wState1 "1" = some ⟨"2024-01-01", wData1⟩ :=
  ⟨rfl, rfl, c1_add_get_roundtrip initialState wRec1 wState1 "1" rfl rfl⟩

/-- C2: adding a recipe whose ingredients list (of well-formed entries in
the sense of the upstream interface) contains an entry lacking both a typ
and any non-empty localized title fails with the malformed-ingredient
error, and the rolled-back database tables are exactly the ones before
the call: no recipe, ingredient or link row of the call survives. -/
theorem c2_malformed_ingredient_rejected :
    ∀ (s : RepoState) (r : RecipeInDb) (rid : String) (lt : Loc5) (ings : List Json),
      recipeId r.data = .ok rid →
      recipeTitle r.data = .ok lt →
      ingredientsListOf r.data = .ok ings →
      (∀ ing ∈ ings, wfEntry ing = true) →
      (∃ ing ∈ ings, malformedEntry ing = true) →
      riAdd s r = (⟨s.db, some s.db⟩, some Err.malformedIngredient) := by
  intro s r rid lt ings h1 h2 h3 hwf hex
  exact riAdd_err_intro (upsertRecipe_err_intro h1 h2 h3
    (procIngs_malformed ings rid 0 (s.db.ingredients, deleteLinks s.db.links rid) hwf hex))

/-- C2, witness: the empty ingredient details reject the whole add on a
fresh store. -/
theorem c2_malformed_ingredient_rejected_witness :
    riAdd initialState badRec =
      (⟨⟨[], [], []⟩, some ⟨[], [], []⟩⟩, some Err.malformedIngredient) :=
  c2_malformed_ingredient_rejected initialState badRec "2" Loc5.nulls [badEntry]
    rfl rfl rfl
    (fun ing h => by rw [List.mem_singleton.mp h]; rfl)
    ⟨badEntry, List.mem_singleton.mpr rfl, rfl⟩

/-- C9: both mutating calls first copy the database file over the backup
file: whatever the outcome of the call, the backup afterwards holds
exactly the tables from before the call, the previous backup content is
overwritten, and the mutation starts from that backed-up state. -/
theorem c9_backup_before_write :
    ∀ (s : RepoState) (r : RecipeInDb) (rs : List RecipeInDb),
      (riAdd s r).1.backup = some s.db ∧ (riAddList s rs).1.backup = some s.db := by
  intro s r rs
  constructor
  · simp only [riAdd, createBackup]
    cases upsertRecipe s.db r <;> rfl
  · simp only [riAddList, createBackup]
    cases upsertRecipes s.db rs <;> rfl

/-- C10: add_list runs the whole batch in one transaction; if any recipe
of the batch fails, the rolled-back state holds the tables from before
the call — recipes earlier in the same batch are discarded too (the
backup copy, a plain file copy outside the transaction, remains). -/
theorem c10_addlist_atomic :
    ∀ (s : RepoState) (rs : List RecipeInDb) (e : Err),
      (riAddList s rs).2 = some e →
      (riAddList s rs).1 = ⟨s.db, some s.db⟩ := by
  intro s rs e h
  exact riAddList_err_state h

/-- C10, witness: a batch whose first recipe is fine and whose second is
malformed commits nothing, the first recipe included. -/
theorem c10_addlist_atomic_witness :
    (riAddList initialState [wRec1, badRec]).2 = some Err.malformedIngredient ∧
      (riAddList initialState [wRec1, badRec]).1 = ⟨⟨[], [], []⟩, some ⟨[], [], []⟩⟩ :=
  ⟨rfl, c10_addlist_atomic initialState [wRec1, badRec] Err.malformedIngredient rfl⟩

/-- C3, counterexample: the claim says an ingredient that has a typ gets
that typ string as its key, but a present empty-string typ is falsy in
Python, so the code falls through to the localized title instead: the key
for emptyTypDetails is salt, not the empty string. -/
theorem c3_key_counterexample :
    Json.getD emptyTypDetails "typ" .null = .ok (Json.str "") ∧
      canonicalIngredientKey emptyTypDetails = .ok "salt" ∧
      ("salt" : String) ≠ "" :=
  ⟨rfl, rfl, by decide⟩

/-- C3, amended: over well-formed details (typ text or absent, localized
titles per-language text), the key is the typ when that is a non-empty
string; otherwise the first non-empty localized title in order en, de,
es, fr, pt, lower-cased and with its whitespace runs collapsed to single
underscores (leading and trailing whitespace dropped); otherwise the
malformed-ingredient error. -/
theorem c3_key_spec :
    ∀ (d : Json), wfDetails d = true → canonicalIngredientKey d = canonicalKeySpec d := by
  intro d h
  cases d with
  | obj kvs =>
    simp only [wfDetails, Bool.and_eq_true] at h
    obtain ⟨⟨⟨htyp, hlt⟩, -⟩, -⟩ := h
    have hfb : scanTitles ((jlookup kvs "localizedTitle").getD (Json.obj [])) langOrder =
        specFallbackKey (Json.obj kvs) := by
      cases hv : jlookup kvs "localizedTitle" with
      | none =>
        have hspec : specTitle (Json.obj kvs) = fun _ => (none : Option String) := by
          funext lang
          simp [specTitle, hv]
        rw [show ((none : Option Json).getD (Json.obj [])) = Json.obj [] from rfl]
        rw [show scanTitles (Json.obj []) langOrder = .error .malformedIngredient from rfl]
        simp [specFallbackKey, hspec, specFirstTitle, langOrder]
      | some v =>
        rw [hv] at hlt
        cases v with
        | obj lt =>
          have hwf : ∀ lang ∈ langOrder, isTextOrNull ((jlookup lt lang).getD .null) = true := by
            intro lang hlang
            have := List.all_eq_true.mp (by simpa [wfTitleMap, wfLangValues] using hlt) lang
              (by simpa [langOrder] using hlang)
            simpa using this
          have hspec : specTitle (Json.obj kvs) = fun lang =>
              (match jlookup lt lang with
               | some (.str s) => some s
               | _ => none) := by
            funext lang
            simp [specTitle, hv]
          rw [show ((some (Json.obj lt)).getD (Json.obj [])) = Json.obj lt from rfl]
          rw [scanTitles_eq_spec langOrder hwf]
          simp [specFallbackKey, hspec]
        | null => simp [wfTitleMap] at hlt
        | bool b => simp [wfTitleMap] at hlt
        | num n => simp [wfTitleMap] at hlt
        | str s => simp [wfTitleMap] at hlt
        | arr xs => simp [wfTitleMap] at hlt
    cases ht : jlookup kvs "typ" with
    | none =>
      simp only [canonicalIngredientKey, Json.getD, ht, Option.getD_none, exc_ok_bind,
        Json.truthy, Bool.false_eq_true, if_false, canonicalKeySpec]
      exact hfb
    | some v =>
      rw [ht] at htyp
      cases v with
      | null =>
        simp only [canonicalIngredientKey, Json.getD, ht, Option.getD_some, exc_ok_bind,
          Json.truthy, Bool.false_eq_true, if_false, canonicalKeySpec]
        exact hfb
      | str s =>
        by_cases hs : s = ""
        · subst hs
          simp only [canonicalIngredientKey, Json.getD, ht, Option.getD_some, exc_ok_bind,
            canonicalKeySpec]
          rw [show (Json.str "").truthy = false from rfl]
          simp only [Bool.false_eq_true, if_false]
          rw [if_neg (by simp)]
          exact hfb
        · simp only [canonicalIngredientKey, Json.getD, ht, Option.getD_some, exc_ok_bind,
            canonicalKeySpec]
          rw [show (Json.str s).truthy = (s != "") from rfl]
          simp [hs, pyStrAtom]
      | bool b => simp [isTextOrNull] at htyp
      | num n => simp [isTextOrNull] at htyp
      | arr xs => simp [isTextOrNull] at htyp
      | obj kvs' => simp [isTextOrNull] at htyp
  | null => simp [wfDetails] at h
  | bool b => simp [wfDetails] at h
  | num n => simp [wfDetails] at h
  | str s => simp [wfDetails] at h
  | arr xs => simp [wfDetails] at h

/-- C3, witness for the amended theorem at a concrete input. -/
theorem c3_key_spec_witness :
    wfDetails tomatoDetails = true ∧
      canonicalIngredientKey tomatoDetails = canonicalKeySpec tomatoDetails ∧
      canonicalIngredientKey tomatoDetails = .ok "tomato" :=
  ⟨rfl, c3_key_spec tomatoDetails rfl, rfl⟩

/-- C4: however add and add_list calls are sequenced from a fresh store,
the ingredient primary keys stay pairwise distinct (two occurrences with
the same canonical key share one row); and the row an upsert stores under
a key is a function of the new details alone — two upserts of the same
details into different tables leave identical rows under the key, so
every column of an earlier row is overwritten, none merged. -/
theorem c4_ingredient_dedup_overwrite :
    (∀ ops : List Op, (ingKeys (runOps ops).db).Nodup) ∧
      (∀ (tbl₁ tbl₂ : List IngredientRow) (d : Json) (t₁ t₂ : List IngredientRow)
          (k₁ k₂ : String),
        upsertIngredient tbl₁ d = .ok (t₁, k₁) → upsertIngredient tbl₂ d = .ok (t₂, k₂) →
        k₁ = k₂ ∧ t₁.find? (fun row => row.key = k₁) = t₂.find? (fun row => row.key = k₂)) := by
  constructor
  · exact runOps_nodup
  · intro tbl₁ tbl₂ d t₁ t₂ k₁ k₂ h₁ h₂
    obtain ⟨row₁, hr₁, hres₁⟩ := upsertIngredient_ok_elim h₁
    obtain ⟨row₂, hr₂, hres₂⟩ := upsertIngredient_ok_elim h₂
    rw [hr₁] at hr₂
    injection hr₂ with hrow
    subst hrow
    injection hres₁ with ht₁ hk₁
    injection hres₂ with ht₂ hk₂
    subst ht₁
    subst hk₁
    subst ht₂
    subst hk₂
    exact ⟨rfl, by rw [find?_upsertIngRow, find?_upsertIngRow]⟩

/-- C4, witness at concrete inputs: one stored tomato row after an add,
and the same details upserted into two different tables yield the same
row under the key. -/
theorem c4_ingredient_dedup_overwrite_witness :
    (ingKeys (runOps [Op.addOne wRecT]).db).Nodup ∧
      ("tomato" = "tomato" ∧
        [tomatoRow].find? (fun row => row.key = "tomato") =
          [oldIngRow, tomatoRow].find? (fun row => row.key = "tomato")) :=
  ⟨c4_ingredient_dedup_overwrite.1 [Op.addOne wRecT],
   c4_ingredient_dedup_overwrite.2 [] [oldIngRow] tomatoDetails [tomatoRow]
     [oldIngRow, tomatoRow] "tomato" "tomato" rfl rfl⟩

/-- C5: when the same recipe is upserted over any two prior table states,
the stored recipe row under its id is exactly the row derived from the
new payload (all columns, raw included), the links for that id sit at
exactly the positions 0..n-1 of the new ingredient list, and that link
block is identical for both prior states: nothing of a previous version
of the recipe, rows or link positions, survives. -/
theorem c5_readd_replaces :
    ∀ (t₁ t₂ : Tables) (r : RecipeInDb) (t₁' t₂' : Tables) (rid : String) (lt : Loc5)
      (ings : List Json),
      upsertRecipe t₁ r = .ok t₁' → upsertRecipe t₂ r = .ok t₂' →
      recipeId r.data = .ok rid → recipeTitle r.data = .ok lt →
      ingredientsListOf r.data = .ok ings →
      t₁'.recipes.find? (fun row => row.id = rid) = some ⟨rid, r.date, lt, r.data⟩ ∧
        (t₁'.links.filter (fun l => l.recipe_id = rid)).map (fun l => l.position) =
          List.range ings.length ∧
        t₁'.links.filter (fun l => l.recipe_id = rid) =
          t₂'.links.filter (fun l => l.recipe_id = rid) := by
  intro t₁ t₂ r t₁' t₂' rid lt ings hu₁ hu₂ hid hlt hings
  obtain ⟨rid₁, lt₁, ings₁, acc₁, ha1, ha2, ha3, ha4, ha5⟩ := upsertRecipe_ok_elim hu₁
  rw [hid] at ha1
  injection ha1 with e1
  subst e1
  rw [hlt] at ha2
  injection ha2 with e2
  subst e2
  rw [hings] at ha3
  injection ha3 with e3
  subst e3
  obtain ⟨rid₂, lt₂, ings₂, acc₂, hb1, hb2, hb3, hb4, hb5⟩ := upsertRecipe_ok_elim hu₂
  rw [hid] at hb1
  injection hb1 with f1
  subst f1
  rw [hlt] at hb2
  injection hb2 with f2
  subst f2
  rw [hings] at hb3
  injection hb3 with f3
  subst f3
  have hinv₁ : ∀ l ∈ deleteLinks t₁.links rid, l.recipe_id = rid → l.position < 0 :=
    fun l hl hr => absurd hr (deleteLinks_no_rid t₁.links rid l hl)
  have hinv₂ : ∀ l ∈ deleteLinks t₂.links rid, l.recipe_id = rid → l.position < 0 :=
    fun l hl hr => absurd hr (deleteLinks_no_rid t₂.links rid l hl)
  obtain ⟨fresh, hres2, hfr, hpos, hind⟩ := procIngs_links ings rid 0 _ _ _ ha4 hinv₁
  have hres2' := hind _ _ _ hb4 hinv₂
  have hfil₁ : t₁'.links.filter (fun l => l.recipe_id = rid) = fresh := by
    rw [ha5]
    show acc₁.2.filter (fun l => l.recipe_id = rid) = fresh
    rw [hres2, List.filter_append,
      filter_rid_of_no_rid (deleteLinks_no_rid t₁.links rid),
      filter_rid_of_all_rid hfr, List.nil_append]
  have hfil₂ : t₂'.links.filter (fun l => l.recipe_id = rid) = fresh := by
    rw [hb5]
    show acc₂.2.filter (fun l => l.recipe_id = rid) = fresh
    rw [hres2', List.filter_append,
      filter_rid_of_no_rid (deleteLinks_no_rid t₂.links rid),
      filter_rid_of_all_rid hfr, List.nil_append]
  refine ⟨?_, ?_, ?_⟩
  · rw [ha5]
    exact find?_upsertRecipeRow t₁.recipes ⟨rid, r.date, lt, r.data⟩
  · rw [hfil₁, hpos, List.range_eq_range']
  · rw [hfil₁, hfil₂]

/-- C5, witness: re-adding recipe 1 over a stale prior version (old link
at position 5) and into a fresh store leaves the same recipe row and the
same single link at position 0. -/
theorem c5_readd_replaces_witness :
    wTablesFresh.recipes.find? (fun row => row.id = "1") =
        some ⟨"1", "2024-01-01", Loc5.nulls, wDataT⟩ ∧
      (wTablesFresh.links.filter (fun l => l.recipe_id = "1")).map (fun l => l.position) =
        List.range [wEntryT].length ∧
      wTablesFresh.links.filter (fun l => l.recipe_id = "1") =
        wTablesStale.links.filter (fun l => l.recipe_id = "1") :=
  c5_readd_replaces ⟨[], [], []⟩ staleTables wRecT wTablesFresh wTablesStale "1"
    Loc5.nulls [wEntryT] rfl rfl rfl rfl rfl

/-- C6: list returns the image of a permutation of the stored recipe rows
sorted by date descending then id ascending, and the empty store lists to
the empty sequence. -/
theorem c6_list_order :
    (∀ s : RepoState, ∃ rows : List RecipeRow,
      List.Perm rows s.db.recipes ∧ List.Sorted recipeLe rows ∧
        riList s = rows.map rowToRecipe) ∧
      riList initialState = [] :=
  ⟨fun s => ⟨List.insertionSort recipeLe s.db.recipes,
    List.perm_insertionSort recipeLe s.db.recipes,
    List.sorted_insertionSort recipeLe s.db.recipes, rfl⟩, rfl⟩

/-- C7: needs_to_be_synced is true exactly when no stored recipe row
carries the date; it is true on the fresh store and false immediately
after a successful add of a recipe with that date. -/
theorem c7_needs_sync :
    ∀ (s : RepoState) (d : String),
      (needsToBeSynced s d = true ↔ ∀ row ∈ s.db.recipes, row.date ≠ d) ∧
        needsToBeSynced initialState d = true ∧
        (∀ (r : RecipeInDb) (s' : RepoState),
          riAdd s r = (s', none) → r.date = d → needsToBeSynced s' d = false) := by
  intro s d
  refine ⟨?_, rfl, ?_⟩
  · unfold needsToBeSynced
    rw [Option.isNone_iff_eq_none, List.find?_eq_none]
    constructor
    · intro h row hrow
      simpa using h row hrow
    · intro h row hrow
      simpa using h row hrow
  · intro r s' hadd hdate
    obtain ⟨db', hdb, hs'⟩ := riAdd_ok_elim hadd
    obtain ⟨rid, lt, ings, acc, h1, h2, h3, h4, h5⟩ := upsertRecipe_ok_elim hdb
    have hmem : (⟨rid, r.date, lt, r.data⟩ : RecipeRow) ∈ db'.recipes := by
      rw [h5]
      exact mem_upsertRecipeRow _ _
    rw [hs']
    unfold needsToBeSynced
    show (db'.recipes.find? (fun row => row.date = d)).isNone = false
    cases hf : db'.recipes.find? (fun row => row.date = d) with
    | some _ => rfl
    | none =>
      exfalso
      have hnone := List.find?_eq_none.mp hf _ hmem
      simp only [decide_eq_true_eq] at hnone
      exact hnone hdate

/-- C7, witness at a concrete date and store. -/
theorem c7_needs_sync_witness :
    needsToBeSynced initialState "2024-01-01" = true ∧
      needsToBeSynced wState1 "2024-01-01" = false :=
  ⟨(c7_needs_sync initialState "2024-01-01").2.1,
   (c7_needs_sync initialState "2024-01-01").2.2 wRec1 wState1 rfl rfl⟩

/-- C8, counterexample: a plural form recorded as a dict holding one
empty string and no plural form at all produce identical list_ingredients
output, although the stored rows differ (empty-string column versus
NULL), so a caller cannot distinguish the two — refuting the
distinguishability half of the claim. -/
theorem c8_plural_counterexample :
    riListIngredients (riAdd initialState emptyPluralRec).1 =
        riListIngredients (riAdd initialState noPluralRec).1 ∧
      (riAdd initialState emptyPluralRec).1.db.ingredients.map
          (fun row => row.number_title.en) = [Json.str ""] ∧
      (riAdd initialState noPluralRec).1.db.ingredients.map
          (fun row => row.number_title.en) = [Json.null] ∧
      Json.str "" ≠ Json.null :=
  ⟨rfl, rfl, rfl, fun h => Json.noConfusion h⟩

/-- C8, amended: list_ingredients returns number_title and
uncountable_title absent exactly when every language column of the stored
group is empty (NULL or the empty string) — so an all-empty-string
recorded plural is returned the same way as an absent one. -/
theorem c8_plural_absent_iff :
    ∀ (s : RepoState) (recs : List IngredientRecord) (row : IngredientRow),
      riListIngredients s = .ok recs → row ∈ s.db.ingredients →
      ∃ r₀, r₀ ∈ recs ∧ recordOfIngRow row = .ok r₀ ∧
        (r₀.number_title = none ↔ row.number_title.allEmptyText = true) ∧
        (r₀.uncountable_title = none ↔ row.uncountable_title.allEmptyText = true) := by
  intro s recs row h hmem
  have hmem' : row ∈ List.insertionSort ingLe s.db.ingredients :=
    (List.perm_insertionSort ingLe s.db.ingredients).mem_iff.mpr hmem
  obtain ⟨r₀, hr₀, hrec⟩ := ingRecords_mem h hmem'
  obtain ⟨hn, hu⟩ := recordOfIngRow_plural hrec
  exact ⟨r₀, hr₀, hrec, hn, hu⟩

/-- C8, witness for the amended theorem: the empty-string plural row is
returned with number_title absent. -/
theorem c8_plural_absent_iff_witness :
    recordOfIngRow saltRowEmptyPlural = .ok saltRecord ∧
      (saltRecord.number_title = none ↔
        saltRowEmptyPlural.number_title.allEmptyText = true) := by
  obtain ⟨r₀, hmem, hrec, hiff, -⟩ := c8_plural_absent_iff
    (riAdd initialState emptyPluralRec).1 [saltRecord] saltRowEmptyPlural rfl
    (show saltRowEmptyPlural ∈ [saltRowEmptyPlural] from List.mem_singleton.mpr rfl)
  have he : r₀ = saltRecord := List.mem_singleton.mp hmem
  subst he
  exact ⟨hrec, hiff⟩

end Kptncook
